import Mathlib

/-!
Verification of the type-hierarchy validation subsystem of this repository
(the hierarchy validator and its type-expression parser).  The repository
ships the validator's unit-test suite; the validator and parser sources
themselves are not present, so the definitions below are modelled from the
specification, pinned down by the behaviour the repository's own test file
asserts.  All definitions are executable so that the theorems can be
checked on concrete hierarchies.
-/

/-! ## Type expression parser -/

/-- Modelled from the spec: the recursive parser output, a base type name
together with an ordered list of parameter type-expressions
(`type_structure.js` is not in the repository snapshot). -/
inductive TypeExpression where
  | mk (name : String) (params : List TypeExpression)

/-- The base name of a parsed type expression. -/
def TypeExpression.name : TypeExpression → String
  | .mk n _ => n

/-- The parameter list of a parsed type expression. -/
def TypeExpression.params : TypeExpression → List TypeExpression
  | .mk _ ps => ps

/-- Modelled from the spec: the four structured parse-error kinds of
`type_structure.js` (missing type name, unmatched left bracket, unmatched
right bracket, trailing characters). -/
inductive ParseError where
  | missingTypeName
  | leftBracket
  | rightBracket
  | extraCharacters
deriving DecidableEq

/-- The item currently being read at the innermost level of the scan:
a name buffer being accumulated, a finished name buffer (a space ended
it), or a completed bracketed expression. -/
inductive Pending where
  | reading (buf : List Char)
  | readingDone (buf : List Char)
  | closed (e : TypeExpression)

/-- Close the pending item into an expression; `none` when a name was
required but absent. -/
def closePend : Pending → Option TypeExpression
  | .reading [] => none
  | .reading buf => some (.mk (String.mk buf) [])
  | .readingDone buf => some (.mk (String.mk buf) [])
  | .closed e => some e

/-- Modelled from the spec: the single left-to-right scan of
`type_structure.js`'s parser, with a stack of currently open bracket
contexts.  `stack` holds, innermost first, the name that opened each
bracket together with the completed siblings at that outer level; `sibs`
holds the completed parameter expressions of the innermost open bracket. -/
def scan : List Char → List (String × List TypeExpression) →
    List TypeExpression → Pending → Except ParseError TypeExpression
  | [], stack, _, pend =>
    match stack with
    | _ :: _ => .error .leftBracket
    | [] =>
      match pend with
      | .reading [] => .error .missingTypeName
      | .reading buf => .ok (.mk (String.mk buf) [])
      | .readingDone buf => .ok (.mk (String.mk buf) [])
      | .closed e => .ok e
  | c :: rest, stack, sibs, pend =>
    if c = '[' then
      match pend with
      | .reading [] => .error .missingTypeName
      | .reading buf => scan rest ((String.mk buf, sibs) :: stack) [] (.reading [])
      | .readingDone buf => scan rest ((String.mk buf, sibs) :: stack) [] (.reading [])
      | .closed _ => .error .extraCharacters
    else if c = ']' then
      match stack with
      | [] => .error .rightBracket
      | (pname, psibs) :: stack2 =>
        match closePend pend with
        | none => .error .missingTypeName
        | some e => scan rest stack2 psibs (.closed (.mk pname (sibs ++ [e])))
    else if c = ',' then
      match stack with
      | [] =>
        match pend with
        | .reading [] => .error .missingTypeName
        | _ => .error .extraCharacters
      | _ :: _ =>
        match closePend pend with
        | none => .error .missingTypeName
        | some e => scan rest stack (sibs ++ [e]) (.reading [])
    else if c = ' ' then
      match pend with
      | .reading [] => scan rest stack sibs (.reading [])
      | .reading buf => scan rest stack sibs (.readingDone buf)
      | p => scan rest stack sibs p
    else
      match pend with
      | .reading buf => scan rest stack sibs (.reading (buf ++ [c]))
      | .readingDone _ => .error .extraCharacters
      | .closed _ => .error .extraCharacters

/-- Modelled from the spec: parse one raw type-expression string into a
`TypeExpression` or exactly one of the four structured errors. -/
def parse (s : String) : Except ParseError TypeExpression :=
  scan s.toList [] [] (.reading [])

/-! ## Hierarchy validator data model -/

/-- Modelled from the spec: a generic type parameter declaration
(`name` plus a variance tag, not otherwise validated here). -/
structure ParamDecl where
  name : String
  variance : String
deriving DecidableEq

/-- Modelled from the spec: one type declaration, an optional `fulfills`
list of raw type-expression strings and an optional `params` list. -/
structure TypeDecl where
  fulfills : List String := []
  params : List ParamDecl := []
deriving DecidableEq

/-- A hierarchy definition object: insertion-ordered keys mapped to
declarations. -/
abbrev Hierarchy := List (String × TypeDecl)

/-- Modelled from the spec: the value handed to `validateHierarchy` -- a
plain object, or one of the non-object shapes the shape check rejects
(missing argument, an array, any other non-object). -/
inductive HierarchyInput where
  | missingInput
  | arrayInput
  | otherInput
  | object (entries : Hierarchy)

/-- Modelled from the spec: one emitted diagnostic, a message template
with its positional arguments (the console sink of
`hierarchy_validation.js` is treated as a diagnostic collector). -/
inductive Diagnostic where
  | notAnObject
  | conflict (canonical : String) (others : List String)
  | illegalChar (key : String) (charClass : String) (c : Char)
  | genericName (key : String)
  | parseFailure (key : String) (entry : String) (err : ParseError)
  | undefinedSuper (key : String) (superName : String)
  | circular (key : String) (chain : String)
deriving DecidableEq

/-- The declared keys of a hierarchy, in declaration order. -/
def keysOf (entries : Hierarchy) : List String := entries.map (·.1)

/-- The lower-cased form of a name, as a character list. -/
def lowered (s : String) : List Char := s.toList.map Char.toLower

/-- Case-insensitive name comparison, the lookup used throughout the
validator. -/
def sameCaseless (a b : String) : Bool := lowered a == lowered b

/-! ## Pass 2: case-conflict check -/

/-- Modelled from the spec: walk the keys in declaration order; a key
whose lower-cased form was already seen is not a group head, otherwise it
heads a group whose other members are the later keys with the same
lower-cased form, in declaration order. -/
def conflictGroupsAux (seen : List String) : List String → List (String × List String)
  | [] => []
  | k :: rest =>
    if seen.any (sameCaseless k) then conflictGroupsAux (k :: seen) rest
    else (k, rest.filter (sameCaseless k)) :: conflictGroupsAux (k :: seen) rest

/-- Group the keys by lower-cased form, keeping the first-declared member
of each group as canonical. -/
def conflictGroups (keys : List String) : List (String × List String) :=
  conflictGroupsAux [] keys

/-- Modelled from the spec: one conflict diagnostic per group with at
least two members, naming the canonical key and the ordered list of the
other members. -/
def conflictDiags (keys : List String) : List Diagnostic :=
  (conflictGroups keys).filterMap fun g =>
    if g.2.isEmpty then none else some (.conflict g.1 g.2)

/-! ## Pass 3: character-legality check -/

/-- Modelled from the spec: the human-readable class name of each illegal
character, `none` for a legal character. -/
def charName (c : Char) : Option String :=
  if c = ',' then some "comma"
  else if c = ' ' then some "space"
  else if c = '[' then some "left bracket"
  else if c = ']' then some "right bracket"
  else none

/-- The first illegal character of a key, with its class name. -/
def firstIllegal (s : String) : Option (String × Char) :=
  s.toList.findSome? fun c => (charName c).map fun n => (n, c)

/-- Modelled from the spec: at most one diagnostic per offending key,
reporting only the first illegal character found. -/
def charDiags (keys : List String) : List Diagnostic :=
  keys.filterMap fun k => (firstIllegal k).map fun p => .illegalChar k p.1 p.2

/-! ## Pass 4: generic-collision check -/

/-- Modelled from the spec: warn for every key whose entire name is a
single character. -/
def genericDiags (keys : List String) : List Diagnostic :=
  keys.filterMap fun k => if k.length == 1 then some (.genericName k) else none

/-! ## Pass 5: supertype existence check -/

/-- Resolve a referenced base name case-insensitively against the
declared keys, returning the first matching declared key. -/
def resolveName (entries : Hierarchy) (n : String) : Option String :=
  (entries.find? fun e => sameCaseless e.1 n).map (·.1)

/-- Modelled from the spec: the diagnostic for one `fulfills` entry of
key `k` -- the structured parse error itself on a parse failure, an
undefined-supertype report (naming the base name as written) when the
base name resolves to no declared key, nothing otherwise. -/
def superDiagFor (entries : Hierarchy) (k : String) (s : String) : Option Diagnostic :=
  match parse s with
  | .error err => some (.parseFailure k s err)
  | .ok t =>
    match resolveName entries t.name with
    | some _ => none
    | none => some (.undefinedSuper k t.name)

/-- Walk the declarations in order, emitting the supertype diagnostics of
each `fulfills` list. -/
def supersDiagsAux (entries : Hierarchy) : Hierarchy → List Diagnostic
  | [] => []
  | e :: rest =>
    e.2.fulfills.filterMap (superDiagFor entries e.1) ++ supersDiagsAux entries rest

/-- Modelled from the spec: pass 5 over the whole hierarchy. -/
def supersDiags (entries : Hierarchy) : List Diagnostic :=
  supersDiagsAux entries entries

/-! ## Pass 6: cycle detection -/

/-- Modelled from the spec: the resolved fulfills edges out of declared
key `k` -- one edge per `fulfills` entry that parses and whose base name
resolves, carrying the raw entry text as written and the resolved
declared key. -/
def adj (entries : Hierarchy) (k : String) : List (String × String) :=
  match entries.find? fun e => e.1 == k with
  | none => []
  | some e =>
    e.2.fulfills.filterMap fun s =>
      match parse s with
      | .error _ => none
      | .ok t => (resolveName entries t.name).map fun k2 => (s, k2)

/-- There is a resolved fulfills edge from `a` to `b`. -/
def hasEdge (entries : Hierarchy) (a b : String) : Bool :=
  (adj entries a).any fun e => e.2 == b

/-- Every two consecutive keys of the list are joined by a resolved
fulfills edge. -/
def pathOk (entries : Hierarchy) : List String → Bool
  | [] => true
  | [_] => true
  | a :: b :: rest => hasEdge entries a b && pathOk entries (b :: rest)

/-- `b` is reachable from `a` through at least one and at most `fuel`
resolved fulfills edges. -/
def reachesWithin (entries : Hierarchy) : Nat → String → String → Bool
  | 0, _, _ => false
  | n + 1, a, b =>
    (adj entries a).any fun e => e.2 == b || reachesWithin entries n e.2 b

/-- The `fulfills` entry parses and its base name resolves to a declared
key. -/
def superOk (entries : Hierarchy) (s : String) : Bool :=
  match parse s with
  | .error _ => false
  | .ok t => (resolveName entries t.name).isSome

/-- Modelled from the spec and the repository's cycle tests: process the
out-edges of the node at the end of `path`.  An edge whose target already
occurs on the current traversal path reports one cycle diagnostic, formed
from the canonical key where the cycle starts followed by the raw
`fulfills` texts of the traversed edges; an edge to a type already fully
visited in this or an earlier traversal is skipped; any other edge is
descended into via `visit`.  `path` holds each traversed node's canonical
key paired with the raw `fulfills` text used to arrive at it. -/
def goEdges (visit : String × String → List String → List String × List Diagnostic)
    (path : List (String × String)) :
    List (String × String) → List String → List String × List Diagnostic
  | [], v => (v, [])
  | (text, tgt) :: rest, v =>
    match path.dropWhile (fun p => !(p.1 == tgt)) with
    | start :: tailp =>
      let chain := String.intercalate " fulfills "
        (start.1 :: (tailp.map (·.2) ++ [text]))
      let r := goEdges visit path rest v
      (r.1, .circular start.1 chain :: r.2)
    | [] =>
      if v.contains tgt then goEdges visit path rest v
      else
        let r1 := visit (text, tgt) v
        let r2 := goEdges visit path rest r1.1
        (r2.1, r1.2 ++ r2.2)

/-- Depth-first traversal of one node: push it onto the path, process its
resolved edges, and mark it visited afterwards.  `fuel` bounds the
recursion depth; the traversal path only ever holds distinct declared
keys, so the fuel supplied by `cycleDiags` is never exhausted. -/
def visitNode (entries : Hierarchy) :
    Nat → List (String × String) → String × String → List String →
    List String × List Diagnostic
  | 0, _, _, v => (v, [])
  | n + 1, path, arriv, v =>
    let path2 := path ++ [(arriv.2, arriv.1)]
    let r := goEdges (fun e v2 => visitNode entries n path2 e v2) path2
      (adj entries arriv.2) v
    (arriv.2 :: r.1, r.2)

/-- Modelled from the spec and the repository's cycle tests: start one
depth-first search at every declared type in declaration order, skipping
types already visited by an earlier traversal, and concatenate the cycle
diagnostics found.  (The spec's §8 sentence promising one report per
cycle member contradicts both the repository's tests and the spec's own
two-independent-cycles property; the tests' shared visited set is
modelled.) -/
def cycleStep (entries : Hierarchy) (acc : List String × List Diagnostic)
    (e : String × TypeDecl) : List String × List Diagnostic :=
  if acc.1.contains e.1 then acc
  else
    let r := visitNode entries (entries.length + 1) [] ("", e.1) acc.1
    (r.1, acc.2 ++ r.2)

/-- Pass 6 over the whole hierarchy: fold the per-root traversal over the
declarations in order. -/
def cycleDiags (entries : Hierarchy) : List Diagnostic :=
  (entries.foldl (cycleStep entries) (([], []) : List String × List Diagnostic)).2

/-! ## The validator -/

/-- Modelled from the spec: run the shape check, then the five content
passes in order, returning every diagnostic emitted. -/
def validateHierarchy : HierarchyInput → List Diagnostic
  | .object entries =>
    conflictDiags (keysOf entries) ++ charDiags (keysOf entries) ++
      genericDiags (keysOf entries) ++ supersDiags entries ++ cycleDiags entries
  | _ => [.notAnObject]

/-! ## Concrete hierarchies used by the claims -/

/-- The two-type hierarchy whose resolved graph is one two-member cycle. -/
def hierAB : Hierarchy := [("typeA", ⟨["typeB"], []⟩), ("typeB", ⟨["typeA"], []⟩)]

/-- The three-type hierarchy with two convergent cycles through typeC. -/
def hierConv : Hierarchy :=
  [("typeA", ⟨["typeC"], []⟩), ("typeB", ⟨["typeC"], []⟩),
   ("typeC", ⟨["typeA", "typeB"], []⟩)]

/-- A self-loop declared with different casing in the fulfills entry. -/
def hierCase : Hierarchy := [("typeA", ⟨["TypeA"], []⟩)]

/-- A two-member cycle whose fulfills entries carry parameter brackets. -/
def hierParams : Hierarchy :=
  [("typeA", ⟨["typeB[A]"], [⟨"A", "co"⟩]⟩),
   ("typeB", ⟨["typeA[B]"], [⟨"B", "co"⟩]⟩)]

/-- Three keys that conflict case-insensitively. -/
def hier3A : Hierarchy := [("typeA", ⟨[], []⟩), ("TypeA", ⟨[], []⟩), ("Typea", ⟨[], []⟩)]

/-- Two independent case-conflict groups. -/
def hier2x2 : Hierarchy :=
  [("typeA", ⟨[], []⟩), ("TypeA", ⟨[], []⟩), ("typeB", ⟨[], []⟩), ("TypeB", ⟨[], []⟩)]

/-- A fulfills entry with an unmatched left bracket. -/
def hierLB : Hierarchy := [("typeA", ⟨["typeB["], []⟩), ("typeB", ⟨[], []⟩)]

/-- A fulfills entry resolving only case-insensitively. -/
def hierCaseRes : Hierarchy := [("typeB", ⟨[], []⟩), ("typeA", ⟨["TypeB"], []⟩)]

/-- A fulfills entry referencing an undeclared type. -/
def hierNotDef : Hierarchy := [("typeA", ⟨["typeB"], []⟩)]

/-- An undeclared reference written with its own casing. -/
def hierNotDefCase : Hierarchy := [("typeA", ⟨["TypeB"], []⟩)]

/-- A key holding two illegal characters. -/
def hierMulti : Hierarchy := [("type[]", ⟨[], []⟩)]

/-- A key holding a comma. -/
def hierComma : Hierarchy := [("type,type", ⟨[], []⟩)]

/-- A key holding a space. -/
def hierSpace : Hierarchy := [("type type", ⟨[], []⟩)]

/-- A key holding a left bracket. -/
def hierLeftB : Hierarchy := [("type[", ⟨[], []⟩)]

/-- A key holding a right bracket. -/
def hierRightB : Hierarchy := [("type]", ⟨[], []⟩)]

/-- The five-type acyclic chain of the repository's `No cycles` test. -/
def hierChain : Hierarchy :=
  [("typeA", ⟨["typeB"], []⟩), ("typeB", ⟨["typeC"], []⟩),
   ("typeC", ⟨["typeD"], []⟩), ("typeD", ⟨["typeE"], []⟩), ("typeE", ⟨[], []⟩)]

/-- The circular-dependency diagnostics starting at key `k`. -/
def circStartsAt (k : String) : Diagnostic → Bool
  | .circular k2 _ => k2 == k
  | _ => false

/-- Discriminator for circular-dependency diagnostics. -/
def isCircularDiag : Diagnostic → Bool
  | .circular _ _ => true
  | _ => false

/-- Discriminator for illegal-character diagnostics about key `k`. -/
def keyHasIllegal (k : String) : Diagnostic → Bool
  | .illegalChar k2 _ _ => k2 == k
  | _ => false

/-! ## Claim theorems -/

/-- C2 counterexample: on the two-member cycle `{typeA fulfills typeB,
typeB fulfills typeA}` the validator emits one circular diagnostic, not
the two per-member diagnostics the claim promises, and no diagnostic
starts at typeB. -/
theorem cycle_not_reported_per_member_cx :
    ((validateHierarchy (.object hierAB)).filter isCircularDiag).length = 1 ∧
    ¬((validateHierarchy (.object hierAB)).filter isCircularDiag).length = 2 ∧
    Diagnostic.circular "typeB" "typeB fulfills typeA fulfills typeB" ∉
      validateHierarchy (.object hierAB) := by decide

/-- C2 (amended): on the two-member cycle the validator emits exactly one
circular diagnostic, found from the first-declared member, `typeA
fulfills typeB fulfills typeA`; the other member is already visited and
starts no traversal of its own. -/
theorem cycle_pair_single_report :
    validateHierarchy (.object hierAB) =
      [Diagnostic.circular "typeA" "typeA fulfills typeB fulfills typeA"] := by rfl

/-- C3: reporting is per cycle, not per member -- the two-member cycle
yields exactly the one diagnostic starting at typeA and none starting at
typeB, and the convergent three-type hierarchy yields exactly the two
diagnostics starting at typeA and typeC, never one starting at typeB. -/
theorem cycle_reports_once_per_cycle :
    validateHierarchy (.object hierAB) =
      [Diagnostic.circular "typeA" "typeA fulfills typeB fulfills typeA"] ∧
    (validateHierarchy (.object hierAB)).any (circStartsAt "typeB") = false ∧
    validateHierarchy (.object hierConv) =
      [Diagnostic.circular "typeA" "typeA fulfills typeC fulfills typeA",
       Diagnostic.circular "typeC" "typeC fulfills typeB fulfills typeC"] ∧
    (validateHierarchy (.object hierConv)).any (circStartsAt "typeB") = false := by
  refine ⟨rfl, rfl, rfl, rfl⟩

/-- C4: parsing is total and deterministic -- every string yields either
a `TypeExpression` or exactly one of the four error kinds, never both.
(Crash-freedom holds by construction: `parse` is a total Lean function.) -/
theorem parse_total_and_deterministic (s : String) :
    ((∃ t, parse s = Except.ok t) ∨
      parse s = Except.error ParseError.missingTypeName ∨
      parse s = Except.error ParseError.leftBracket ∨
      parse s = Except.error ParseError.rightBracket ∨
      parse s = Except.error ParseError.extraCharacters) ∧
    ¬((∃ t, parse s = Except.ok t) ∧ (∃ e2, parse s = Except.error e2)) := by
  constructor
  · cases h : parse s with
    | ok t => exact Or.inl ⟨t, rfl⟩
    | error e => cases e <;> simp
  · rintro ⟨⟨t, ht⟩, ⟨e2, he⟩⟩
    rw [ht] at he
    cases he

/-- C5: any non-object input produces exactly the shape diagnostic and
nothing else -- no other pass runs. -/
theorem non_object_single_shape_diag (i : HierarchyInput)
    (h : ∀ entries, i ≠ HierarchyInput.object entries) :
    validateHierarchy i = [Diagnostic.notAnObject] := by
  cases i with
  | missingInput => rfl
  | arrayInput => rfl
  | otherInput => rfl
  | object entries => exact absurd rfl (h entries)

/-- C5 witness: the array input is not an object and gets exactly the
shape diagnostic. -/
theorem non_object_single_shape_diag_witness :
    (∀ entries, HierarchyInput.arrayInput ≠ HierarchyInput.object entries) ∧
    validateHierarchy HierarchyInput.arrayInput = [Diagnostic.notAnObject] :=
  ⟨fun _ h => HierarchyInput.noConfusion h,
   non_object_single_shape_diag HierarchyInput.arrayInput
     (fun _ h => HierarchyInput.noConfusion h)⟩

/-- C10: a cycle diagnostic's chain is the literal fulfills-entry texts
as written along the traversed edges -- preserving casing (`typeA
fulfills TypeA`) and bracketed parameter text (`typeA fulfills typeB[A]
fulfills typeA[B]`). -/
theorem cycle_chain_literal_text :
    validateHierarchy (.object hierCase) =
      [Diagnostic.circular "typeA" "typeA fulfills TypeA"] ∧
    validateHierarchy (.object hierParams) =
      [Diagnostic.circular "typeA" "typeA fulfills typeB[A] fulfills typeA[B]"] :=
  ⟨rfl, rfl⟩

/-! ## Supporting lemmas: the shape of each pass's diagnostics -/

theorem mem_conflictDiags_shape {keys : List String} {d : Diagnostic}
    (h : d ∈ conflictDiags keys) : ∃ a b, d = Diagnostic.conflict a b := by
  obtain ⟨g, hg, hsome⟩ := List.mem_filterMap.1 h
  by_cases he : g.2.isEmpty
  · simp [he] at hsome
  · simp [he] at hsome
    exact ⟨g.1, g.2, hsome.symm⟩

theorem mem_charDiags_shape {keys : List String} {d : Diagnostic}
    (h : d ∈ charDiags keys) : ∃ a b c, d = Diagnostic.illegalChar a b c := by
  obtain ⟨k, hk, hsome⟩ := List.mem_filterMap.1 h
  obtain ⟨p, hp, heq⟩ := Option.map_eq_some'.1 hsome
  exact ⟨k, p.1, p.2, heq.symm⟩

theorem mem_genericDiags_shape {keys : List String} {d : Diagnostic}
    (h : d ∈ genericDiags keys) : ∃ a, d = Diagnostic.genericName a := by
  obtain ⟨k, hk, hsome⟩ := List.mem_filterMap.1 h
  by_cases hl : k.length == 1
  · simp [hl] at hsome
    exact ⟨k, hsome.symm⟩
  · simp [hl] at hsome

theorem superDiagFor_eq_some {entries : Hierarchy} {k s : String} {d : Diagnostic}
    (h : superDiagFor entries k s = some d) :
    (∃ err, parse s = Except.error err ∧ d = Diagnostic.parseFailure k s err) ∨
    (∃ t, parse s = Except.ok t ∧ resolveName entries t.name = none ∧
      d = Diagnostic.undefinedSuper k t.name) := by
  cases hp : parse s with
  | error err =>
    simp [superDiagFor, hp] at h
    exact Or.inl ⟨err, rfl, h.symm⟩
  | ok t =>
    cases hr : resolveName entries t.name with
    | some k2 => simp [superDiagFor, hp, hr] at h
    | none =>
      simp [superDiagFor, hp, hr] at h
      exact Or.inr ⟨t, rfl, hr, h.symm⟩

theorem mem_supersDiagsAux {entries : Hierarchy} {d : Diagnostic} :
    ∀ {l : Hierarchy}, d ∈ supersDiagsAux entries l ↔
      ∃ e ∈ l, ∃ s ∈ e.2.fulfills, superDiagFor entries e.1 s = some d := by
  intro l
  induction l with
  | nil => simp [supersDiagsAux]
  | cons e rest ih =>
    simp only [supersDiagsAux, List.mem_append, List.mem_filterMap, ih,
      List.mem_cons]
    constructor
    · rintro (⟨s, hs, hd⟩ | ⟨e2, he2, s, hs, hd⟩)
      · exact ⟨e, Or.inl rfl, s, hs, hd⟩
      · exact ⟨e2, Or.inr he2, s, hs, hd⟩
    · rintro ⟨e2, (rfl | he2), s, hs, hd⟩
      · exact Or.inl ⟨s, hs, hd⟩
      · exact Or.inr ⟨e2, he2, s, hs, hd⟩

theorem mem_supersDiags_shape {entries : Hierarchy} {d : Diagnostic}
    (h : d ∈ supersDiags entries) :
    (∃ a b err, d = Diagnostic.parseFailure a b err) ∨
    (∃ a b, d = Diagnostic.undefinedSuper a b) := by
  obtain ⟨e, he, s, hs, hd⟩ := mem_supersDiagsAux.1 h
  rcases superDiagFor_eq_some hd with ⟨err, _, rfl⟩ | ⟨t, _, _, rfl⟩
  · exact Or.inl ⟨e.1, s, err, rfl⟩
  · exact Or.inr ⟨e.1, TypeExpression.name t, rfl⟩

theorem goEdges_shape {visit : String × String → List String → List String × List Diagnostic}
    {path : List (String × String)}
    (hv : ∀ e v2 d, d ∈ (visit e v2).2 → ∃ a b, d = Diagnostic.circular a b) :
    ∀ edges v d, d ∈ (goEdges visit path edges v).2 →
      ∃ a b, d = Diagnostic.circular a b := by
  intro edges
  induction edges with
  | nil =>
    intro v d h
    simp [goEdges] at h
  | cons e rest ih =>
    intro v d h
    obtain ⟨text, tgt⟩ := e
    rw [goEdges] at h
    cases hdw : path.dropWhile (fun p => !(p.1 == tgt)) with
    | cons start tailp =>
      rw [hdw] at h
      simp only [List.mem_cons] at h
      rcases h with rfl | h
      · exact ⟨_, _, rfl⟩
      · exact ih v d h
    | nil =>
      rw [hdw] at h
      by_cases hc : v.contains tgt
      · rw [if_pos hc] at h
        exact ih v d h
      · rw [if_neg hc] at h
        simp only [List.mem_append] at h
        rcases h with h | h
        · exact hv _ _ d h
        · exact ih _ d h

theorem visitNode_shape {entries : Hierarchy} :
    ∀ fuel path arriv v d, d ∈ (visitNode entries fuel path arriv v).2 →
      ∃ a b, d = Diagnostic.circular a b := by
  intro fuel
  induction fuel with
  | zero =>
    intro path arriv v d h
    simp [visitNode] at h
  | succ n ih =>
    intro path arriv v d h
    rw [visitNode] at h
    exact goEdges_shape (fun e v2 d2 h2 => ih _ e v2 d2 h2) _ v d h

theorem cycleDiags_shape {entries : Hierarchy} {d : Diagnostic}
    (h : d ∈ cycleDiags entries) : ∃ a b, d = Diagnostic.circular a b := by
  have main : ∀ (l : Hierarchy) (acc : List String × List Diagnostic),
      (∀ d2 ∈ acc.2, ∃ a b, d2 = Diagnostic.circular a b) →
      ∀ d2 ∈ (l.foldl (cycleStep entries) acc).2, ∃ a b, d2 = Diagnostic.circular a b := by
    intro l
    induction l with
    | nil => intro acc hacc d2 h2; exact hacc d2 h2
    | cons e rest ih =>
      intro acc hacc d2 h2
      refine ih (cycleStep entries acc e) ?_ d2 h2
      intro d3 h3
      by_cases hc : acc.1.contains e.1
      · rw [cycleStep, if_pos hc] at h3
        exact hacc d3 h3
      · rw [cycleStep, if_neg hc] at h3
        simp only [List.mem_append] at h3
        rcases h3 with h3 | h3
        · exact hacc d3 h3
        · exact visitNode_shape _ _ _ _ d3 h3
  exact main entries ([], []) (by intro d2 h2; simp at h2) d h

/-- Membership in the validator's output, split by pass. -/
theorem mem_validate_object {entries : Hierarchy} {d : Diagnostic} :
    d ∈ validateHierarchy (.object entries) ↔
      d ∈ conflictDiags (keysOf entries) ∨ d ∈ charDiags (keysOf entries) ∨
      d ∈ genericDiags (keysOf entries) ∨ d ∈ supersDiags entries ∨
      d ∈ cycleDiags entries := by
  simp [validateHierarchy, List.mem_append, or_assoc]

/-- A supertype diagnostic produced for a declared entry is in pass 5's
output. -/
theorem supersDiags_mem_of {entries : Hierarchy} {k : String} {decl : TypeDecl}
    {s : String} {d : Diagnostic} (he : (k, decl) ∈ entries)
    (hs : s ∈ decl.fulfills) (hd : superDiagFor entries k s = some d) :
    d ∈ supersDiags entries :=
  mem_supersDiagsAux.2 ⟨(k, decl), he, s, hs, hd⟩

/-- A conflict diagnostic is in the validator's output exactly when it
names a case-conflict group with at least one other member. -/
theorem conflict_mem_iff {entries : Hierarchy} {k : String} {os : List String} :
    Diagnostic.conflict k os ∈ validateHierarchy (.object entries) ↔
      (k, os) ∈ conflictGroups (keysOf entries) ∧ os ≠ [] := by
  rw [mem_validate_object]
  constructor
  · rintro (h | h | h | h | h)
    · obtain ⟨⟨g1, g2⟩, hg, hsome⟩ := List.mem_filterMap.1 h
      by_cases he : g2.isEmpty
      · simp [he] at hsome
      · simp [he] at hsome
        obtain ⟨h1, h2⟩ := hsome
        subst h1
        subst h2
        refine ⟨hg, ?_⟩
        simpa [List.isEmpty_iff] using he
    · obtain ⟨a, b, c, heq⟩ := mem_charDiags_shape h
      exact Diagnostic.noConfusion heq
    · obtain ⟨a, heq⟩ := mem_genericDiags_shape h
      exact Diagnostic.noConfusion heq
    · rcases mem_supersDiags_shape h with ⟨a, b, err, heq⟩ | ⟨a, b, heq⟩ <;>
        exact Diagnostic.noConfusion heq
    · obtain ⟨a, b, heq⟩ := cycleDiags_shape h
      exact Diagnostic.noConfusion heq
  · rintro ⟨hmem, hne⟩
    refine Or.inl (List.mem_filterMap.2 ⟨(k, os), hmem, ?_⟩)
    simp [List.isEmpty_iff, hne]

/-- C6: the case-conflict pass groups keys by lower-cased form, the
first-declared member of each group is canonical and the diagnostic lists
the other members in declaration order -- one diagnostic per group.  The
concrete three-way conflict and the two independent groups behave as the
claim states. -/
theorem conflict_groups_first_canonical :
    (∀ (entries : Hierarchy) (k : String) (os : List String),
      Diagnostic.conflict k os ∈ validateHierarchy (.object entries) ↔
        (k, os) ∈ conflictGroups (keysOf entries) ∧ os ≠ []) ∧
    validateHierarchy (.object hier3A) =
      [Diagnostic.conflict "typeA" ["TypeA", "Typea"]] ∧
    validateHierarchy (.object hier2x2) =
      [Diagnostic.conflict "typeA" ["TypeA"], Diagnostic.conflict "typeB" ["TypeB"]] :=
  ⟨fun _ _ _ => conflict_mem_iff, rfl, rfl⟩

/-- C7: a successfully parsed fulfills entry resolves its base name
case-insensitively against the declared keys; resolution yields no
undefined-supertype diagnostic for that name, failure to resolve emits
one naming the reference exactly as written.  Concretely, `TypeB`
resolves against declared `typeB` with no diagnostic at all, and an
unresolved reference is reported in its original casing. -/
theorem supertype_caseless_resolution (entries : Hierarchy) (k : String)
    (decl : TypeDecl) (s : String) (t : TypeExpression)
    (he : (k, decl) ∈ entries) (hs : s ∈ decl.fulfills)
    (hp : parse s = Except.ok t) :
    ((resolveName entries (TypeExpression.name t)).isSome →
      Diagnostic.undefinedSuper k (TypeExpression.name t) ∉
        validateHierarchy (.object entries)) ∧
    (resolveName entries (TypeExpression.name t) = none →
      Diagnostic.undefinedSuper k (TypeExpression.name t) ∈
        validateHierarchy (.object entries)) ∧
    validateHierarchy (.object hierCaseRes) = [] ∧
    validateHierarchy (.object hierNotDef) =
      [Diagnostic.undefinedSuper "typeA" "typeB"] ∧
    validateHierarchy (.object hierNotDefCase) =
      [Diagnostic.undefinedSuper "typeA" "TypeB"] := by
  refine ⟨?_, ?_, rfl, rfl, rfl⟩
  · intro hres hmem
    rcases mem_validate_object.1 hmem with h | h | h | h | h
    · obtain ⟨a, b, heq⟩ := mem_conflictDiags_shape h
      exact Diagnostic.noConfusion heq
    · obtain ⟨a, b, c, heq⟩ := mem_charDiags_shape h
      exact Diagnostic.noConfusion heq
    · obtain ⟨a, heq⟩ := mem_genericDiags_shape h
      exact Diagnostic.noConfusion heq
    · obtain ⟨e, he2, s2, hs2, hd⟩ := mem_supersDiagsAux.1 h
      rcases superDiagFor_eq_some hd with ⟨err, _, heq⟩ | ⟨t2, _, hr2, heq⟩
      · exact Diagnostic.noConfusion heq
      · obtain ⟨hk2, hname⟩ := Diagnostic.undefinedSuper.inj heq
        rw [← hname] at hr2
        rw [hr2] at hres
        simp at hres
    · obtain ⟨a, b, heq⟩ := cycleDiags_shape h
      exact Diagnostic.noConfusion heq
  · intro hnone
    refine mem_validate_object.2 (Or.inr (Or.inr (Or.inr (Or.inl
      (supersDiags_mem_of he hs ?_)))))
    simp [superDiagFor, hp, hnone]

/-- C7 witness: in the hierarchy declaring `typeB` and `typeA fulfills
TypeB`, the entry parses, resolves case-insensitively, and no
undefined-supertype diagnostic is emitted. -/
theorem supertype_caseless_resolution_witness :
    ("typeA", (⟨["TypeB"], []⟩ : TypeDecl)) ∈ hierCaseRes ∧
    "TypeB" ∈ (⟨["TypeB"], []⟩ : TypeDecl).fulfills ∧
    parse "TypeB" = Except.ok (.mk "TypeB" []) ∧
    Diagnostic.undefinedSuper "typeA" "TypeB" ∉
      validateHierarchy (.object hierCaseRes) :=
  ⟨by decide, by decide, by rfl,
   (supertype_caseless_resolution hierCaseRes "typeA" ⟨["TypeB"], []⟩ "TypeB"
     (.mk "TypeB" []) (by decide) (by decide) (by rfl)).1 (by rfl)⟩

/-- C8: a fulfills entry that fails to parse yields a diagnostic carrying
the structured parse-error value itself, and the parse error is never
thrown; concretely `typeB[` yields exactly one diagnostic whose attached
error is the left-bracket error. -/
theorem parse_error_becomes_diag (entries : Hierarchy) (k : String)
    (decl : TypeDecl) (s : String) (err : ParseError)
    (he : (k, decl) ∈ entries) (hs : s ∈ decl.fulfills)
    (hp : parse s = Except.error err) :
    Diagnostic.parseFailure k s err ∈ validateHierarchy (.object entries) ∧
    validateHierarchy (.object hierLB) =
      [Diagnostic.parseFailure "typeA" "typeB[" ParseError.leftBracket] := by
  refine ⟨?_, rfl⟩
  refine mem_validate_object.2 (Or.inr (Or.inr (Or.inr (Or.inl
    (supersDiags_mem_of he hs ?_)))))
  simp [superDiagFor, hp]

/-- C8 witness: the hierarchy with `typeA` fulfilling `typeB[` produces
the parse-failure diagnostic carrying the left-bracket error. -/
theorem parse_error_becomes_diag_witness :
    ("typeA", (⟨["typeB["], []⟩ : TypeDecl)) ∈ hierLB ∧
    "typeB[" ∈ (⟨["typeB["], []⟩ : TypeDecl).fulfills ∧
    parse "typeB[" = Except.error ParseError.leftBracket ∧
    Diagnostic.parseFailure "typeA" "typeB[" ParseError.leftBracket ∈
      validateHierarchy (.object hierLB) :=
  ⟨by decide, by decide, by rfl,
   (parse_error_becomes_diag hierLB "typeA" ⟨["typeB["], []⟩ "typeB["
     ParseError.leftBracket (by decide) (by decide) (by rfl)).1⟩

/-- No illegal-character diagnostic about `k` arises from keys that do
not include `k`. -/
theorem charDiags_filter_not_mem {keys : List String} {k : String} (h : k ∉ keys) :
    (charDiags keys).filter (keyHasIllegal k) = [] := by
  rw [List.filter_eq_nil_iff]
  intro d hd
  obtain ⟨k2, hk2, hsome⟩ := List.mem_filterMap.1 hd
  obtain ⟨p, hp, heq⟩ := Option.map_eq_some'.1 hsome
  subst heq
  simp only [keyHasIllegal]
  intro hkk
  rw [beq_iff_eq] at hkk
  subst hkk
  exact h hk2

/-- With distinct keys, the character pass emits at most one diagnostic
about any key. -/
theorem charDiags_filter_len {keys : List String} (hnd : keys.Nodup) (k : String) :
    ((charDiags keys).filter (keyHasIllegal k)).length ≤ 1 := by
  induction keys with
  | nil => simp [charDiags]
  | cons k2 rest ih =>
    rw [List.nodup_cons] at hnd
    cases hfi : firstIllegal k2 with
    | none =>
      simp only [charDiags, List.filterMap_cons, hfi, Option.map_none']
      exact ih hnd.2
    | some p =>
      simp only [charDiags, List.filterMap_cons, hfi, Option.map_some']
      rw [List.filter_cons]
      by_cases hk : keyHasIllegal k (Diagnostic.illegalChar k2 p.1 p.2)
      · have hk2k : k2 = k := by
          simpa only [keyHasIllegal, beq_iff_eq] using hk
        subst hk2k
        rw [if_pos hk]
        have : (charDiags rest).filter (keyHasIllegal k2) = [] :=
          charDiags_filter_not_mem hnd.1
        rw [charDiags] at this
        rw [this]
        simp
      · rw [if_neg hk]
        exact ih hnd.2

/-- C9: the character pass reports, per offending key, only the first
illegal character with its class name; with distinct keys the validator
never emits two illegal-character diagnostics about the same key, and
the four illegal characters are reported with their human-readable
names; a key with several illegal characters gets one diagnostic for the
first. -/
theorem illegal_char_first_only (entries : Hierarchy) (k : String)
    (hnd : (keysOf entries).Nodup) :
    ((validateHierarchy (.object entries)).filter (keyHasIllegal k)).length ≤ 1 ∧
    (∀ nm c, k ∈ keysOf entries → firstIllegal k = some (nm, c) →
      Diagnostic.illegalChar k nm c ∈ validateHierarchy (.object entries)) ∧
    validateHierarchy (.object hierMulti) =
      [Diagnostic.illegalChar "type[]" "left bracket" '['] ∧
    validateHierarchy (.object hierComma) =
      [Diagnostic.illegalChar "type,type" "comma" ','] ∧
    validateHierarchy (.object hierSpace) =
      [Diagnostic.illegalChar "type type" "space" ' '] ∧
    validateHierarchy (.object hierLeftB) =
      [Diagnostic.illegalChar "type[" "left bracket" '['] ∧
    validateHierarchy (.object hierRightB) =
      [Diagnostic.illegalChar "type]" "right bracket" ']'] := by
  refine ⟨?_, ?_, rfl, rfl, rfl, rfl, rfl⟩
  · show ((conflictDiags (keysOf entries) ++ charDiags (keysOf entries) ++
      genericDiags (keysOf entries) ++ supersDiags entries ++
      cycleDiags entries).filter (keyHasIllegal k)).length ≤ 1
    simp only [List.filter_append, List.length_append]
    have hconf : (conflictDiags (keysOf entries)).filter (keyHasIllegal k) = [] := by
      rw [List.filter_eq_nil_iff]
      intro d hd
      obtain ⟨a, b, rfl⟩ := mem_conflictDiags_shape hd
      simp [keyHasIllegal]
    have hgen : (genericDiags (keysOf entries)).filter (keyHasIllegal k) = [] := by
      rw [List.filter_eq_nil_iff]
      intro d hd
      obtain ⟨a, rfl⟩ := mem_genericDiags_shape hd
      simp [keyHasIllegal]
    have hsup : (supersDiags entries).filter (keyHasIllegal k) = [] := by
      rw [List.filter_eq_nil_iff]
      intro d hd
      rcases mem_supersDiags_shape hd with ⟨a, b, err, rfl⟩ | ⟨a, b, rfl⟩ <;>
        simp [keyHasIllegal]
    have hcyc : (cycleDiags entries).filter (keyHasIllegal k) = [] := by
      rw [List.filter_eq_nil_iff]
      intro d hd
      obtain ⟨a, b, rfl⟩ := cycleDiags_shape hd
      simp [keyHasIllegal]
    rw [hconf, hgen, hsup, hcyc]
    simpa using charDiags_filter_len hnd k
  · intro nm c hk hfi
    refine mem_validate_object.2 (Or.inr (Or.inl ?_))
    exact List.mem_filterMap.2 ⟨k, hk, by simp [hfi]⟩

/-- C9 witness: the key `type[]` holds two illegal characters, has
distinct keys, receives the single left-bracket diagnostic, and no
second report. -/
theorem illegal_char_first_only_witness :
    (keysOf hierMulti).Nodup ∧
    ((validateHierarchy (.object hierMulti)).filter (keyHasIllegal "type[]")).length ≤ 1 ∧
    Diagnostic.illegalChar "type[]" "left bracket" '[' ∈
      validateHierarchy (.object hierMulti) :=
  ⟨by decide,
   (illegal_char_first_only hierMulti "type[]" (by decide)).1,
   (illegal_char_first_only hierMulti "type[]" (by decide)).2.1 "left bracket" '['
     (by decide) (by rfl)⟩

/-! ## Supporting lemmas: paths and reachability in the resolved graph -/

theorem dropWhile_head_false {α : Type _} (p : α → Bool) :
    ∀ (l : List α) (a : α) (r : List α), l.dropWhile p = a :: r → p a = false := by
  intro l
  induction l with
  | nil => intro a r h; cases h
  | cons x xs ih =>
    intro a r h
    rw [List.dropWhile_cons] at h
    by_cases hx : p x
    · rw [if_pos hx] at h
      exact ih a r h
    · rw [if_neg hx] at h
      injection h with h1 h2
      subst h1
      exact Bool.eq_false_iff.2 hx

theorem getLast?_app {α : Type _} :
    ∀ (xs : List α) (y : α) (ys : List α),
      (xs ++ y :: ys).getLast? = (y :: ys).getLast? := by
  intro xs
  induction xs with
  | nil => intro y ys; rfl
  | cons x xs ih =>
    intro y ys
    rw [List.cons_append]
    cases xs with
    | nil => simp
    | cons x2 xs2 =>
      rw [List.cons_append, List.getLast?_cons_cons, ← List.cons_append]
      exact ih y ys

theorem pathOk_cons_cons {entries : Hierarchy} {a b : String} {rest : List String} :
    pathOk entries (a :: b :: rest) =
      (hasEdge entries a b && pathOk entries (b :: rest)) := rfl

theorem pathOk_tail {entries : Hierarchy} {a : String} {l : List String}
    (h : pathOk entries (a :: l) = true) : pathOk entries l = true := by
  cases l with
  | nil => rfl
  | cons b r =>
    rw [pathOk_cons_cons] at h
    exact (Bool.and_eq_true _ _ ▸ h).2

theorem pathOk_suffix {entries : Hierarchy} :
    ∀ (xs ys : List String), pathOk entries (xs ++ ys) = true →
      pathOk entries ys = true := by
  intro xs
  induction xs with
  | nil => intro ys h; exact h
  | cons x xs ih =>
    intro ys h
    rw [List.cons_append] at h
    exact ih ys (pathOk_tail h)

theorem pathOk_append_edge {entries : Hierarchy} :
    ∀ (l : List String) (cur tgt : String), pathOk entries l = true →
      l.getLast? = some cur → hasEdge entries cur tgt = true →
      pathOk entries (l ++ [tgt]) = true := by
  intro l
  induction l with
  | nil => intro cur tgt h hl he; cases hl
  | cons a l2 ih =>
    intro cur tgt h hl he
    cases l2 with
    | nil =>
      rw [List.getLast?_singleton] at hl
      obtain rfl := Option.some.inj hl
      simp [pathOk, he]
    | cons b r =>
      rw [pathOk_cons_cons] at h
      have h2 := Bool.and_eq_true _ _ ▸ h
      rw [List.getLast?_cons_cons] at hl
      rw [List.cons_append, List.cons_append, pathOk_cons_cons]
      have := ih cur tgt h2.2 hl he
      rw [List.cons_append] at this
      rw [Bool.and_eq_true]
      exact ⟨h2.1, this⟩

theorem reach_of_pathOk {entries : Hierarchy} :
    ∀ (l : List String) (a b c : String) (fuel : Nat),
      pathOk entries (a :: l) = true → (a :: l).getLast? = some b →
      hasEdge entries b c = true → l.length + 1 ≤ fuel →
      reachesWithin entries fuel a c = true := by
  intro l
  induction l with
  | nil =>
    intro a b c fuel hp hl he hf
    rw [List.getLast?_singleton] at hl
    obtain rfl := Option.some.inj hl
    cases fuel with
    | zero => exact absurd hf (by omega)
    | succ n =>
      rw [reachesWithin, List.any_eq_true]
      obtain ⟨e, hmem, hbeq⟩ := List.any_eq_true.1 he
      exact ⟨e, hmem, by simp [hbeq]⟩
  | cons x xs ih =>
    intro a b c fuel hp hl he hf
    rw [pathOk_cons_cons] at hp
    have hp2 := Bool.and_eq_true _ _ ▸ hp
    rw [List.getLast?_cons_cons] at hl
    cases fuel with
    | zero => exact absurd hf (by omega)
    | succ n =>
      have hn : xs.length + 1 ≤ n := by
        simp only [List.length_cons] at hf
        omega
      have hr := ih x b c n hp2.2 hl he hn
      rw [reachesWithin, List.any_eq_true]
      obtain ⟨e, hmem, hbeq⟩ := List.any_eq_true.1 hp2.1
      refine ⟨e, hmem, ?_⟩
      rw [beq_iff_eq] at hbeq
      rw [hbeq]
      simp [hr]

theorem adj_target_mem {entries : Hierarchy} {k : String} {e : String × String}
    (h : e ∈ adj entries k) : e.2 ∈ keysOf entries := by
  cases hf : entries.find? (fun e2 => e2.1 == k) with
  | none => simp [adj, hf] at h
  | some ent =>
    simp only [adj, hf] at h
    obtain ⟨s, hs, hsome⟩ := List.mem_filterMap.1 h
    cases hp : parse s with
    | error err => rw [hp] at hsome; cases hsome
    | ok t =>
      rw [hp] at hsome
      obtain ⟨k2, hk2, heq⟩ := Option.map_eq_some'.1 hsome
      obtain ⟨ent2, hfind2, h12⟩ := Option.map_eq_some'.1 hk2
      subst heq
      subst h12
      exact List.mem_map_of_mem (·.1) (List.mem_of_find?_eq_some hfind2)

theorem hasEdge_of_mem_adj {entries : Hierarchy} {k : String} {e : String × String}
    (h : e ∈ adj entries k) : hasEdge entries k e.2 = true := by
  rw [hasEdge, List.any_eq_true]
  exact ⟨e, h, by simp⟩

theorem nodup_subset_length {α : Type _} [DecidableEq α] {l1 l2 : List α}
    (h1 : l1.Nodup) (hsub : ∀ x ∈ l1, x ∈ l2) : l1.length ≤ l2.length := by
  calc l1.length = l1.toFinset.card := (List.toFinset_card_of_nodup h1).symm
    _ ≤ l2.toFinset.card := Finset.card_le_card
        (fun x hx => List.mem_toFinset.2 (hsub x (List.mem_toFinset.1 hx)))
    _ ≤ l2.length := List.toFinset_card_le l2

/-- When no declared key can reach itself, processing the out-edges of a
traversal path's last node emits no diagnostic. -/
theorem goEdges_no_cycle {entries : Hierarchy}
    (hknd : (keysOf entries).Nodup)
    (hcyc : ∀ k ∈ keysOf entries, reachesWithin entries entries.length k k = false) :
    ∀ (edges : List (String × String))
      (visit : String × String → List String → List String × List Diagnostic)
      (path : List (String × String)) (cur : String) (v : List String),
      pathOk entries (path.map (·.1)) = true →
      (path.map (·.1)).Nodup →
      (∀ p ∈ path, p.1 ∈ keysOf entries) →
      (path.map (·.1)).getLast? = some cur →
      (∀ e ∈ edges, e ∈ adj entries cur) →
      (∀ e v2, e ∈ adj entries cur →
        path.dropWhile (fun p => !(p.1 == e.2)) = [] → (visit e v2).2 = []) →
      (goEdges visit path edges v).2 = [] := by
  intro edges
  induction edges with
  | nil =>
    intro visit path cur v _ _ _ _ _ _
    simp [goEdges]
  | cons e rest ih =>
    intro visit path cur v hp hnd hmem hlast hedges hvisit
    obtain ⟨text, tgt⟩ := e
    rw [goEdges]
    cases hdw : path.dropWhile (fun p => !(p.1 == tgt)) with
    | nil =>
      by_cases hc : v.contains tgt
      · rw [if_pos hc]
        exact ih visit path cur v hp hnd hmem hlast
          (fun e2 he2 => hedges e2 (List.mem_cons_of_mem _ he2)) hvisit
      · rw [if_neg hc]
        have h1 : (visit (text, tgt) v).2 = [] :=
          hvisit (text, tgt) v (hedges _ (List.mem_cons_self _ _)) hdw
        have h2 : (goEdges visit path rest ((visit (text, tgt) v).1)).2 = [] :=
          ih visit path cur _ hp hnd hmem hlast
            (fun e2 he2 => hedges e2 (List.mem_cons_of_mem _ he2)) hvisit
        simp [h1, h2]
    | cons start tailp =>
      exfalso
      have hein : (text, tgt) ∈ adj entries cur := hedges _ (List.mem_cons_self _ _)
      have hpstart : (!(start.1 == tgt)) = false :=
        dropWhile_head_false _ path start tailp hdw
      have hstart : start.1 = tgt := by
        rw [Bool.not_eq_false'] at hpstart
        exact beq_iff_eq.1 hpstart
      have hsplit : path.takeWhile (fun p => !(p.1 == tgt)) ++ (start :: tailp) = path := by
        rw [← hdw]
        exact List.takeWhile_append_dropWhile _ _
      have hkeys : path.map (·.1) =
          (path.takeWhile (fun p => !(p.1 == tgt))).map (·.1) ++
            (start.1 :: tailp.map (·.1)) := by
        conv =>
          lhs
          rw [← hsplit]
        simp
      have hsuffOk : pathOk entries (start.1 :: tailp.map (·.1)) = true := by
        apply pathOk_suffix ((path.takeWhile (fun p => !(p.1 == tgt))).map (·.1))
        rw [← hkeys]
        exact hp
      have hsufflast : (start.1 :: tailp.map (·.1)).getLast? = some cur := by
        rw [hkeys, getLast?_app] at hlast
        exact hlast
      have hedge : hasEdge entries cur tgt = true :=
        hasEdge_of_mem_adj hein
      have hsuffnd : (start.1 :: tailp.map (·.1)).Nodup := by
        rw [hkeys] at hnd
        exact (List.nodup_append.1 hnd).2.1
      have hsuffsub : ∀ x ∈ start.1 :: tailp.map (·.1), x ∈ keysOf entries := by
        intro x hx
        have hx2 : x ∈ path.map (·.1) := by
          rw [hkeys]
          exact List.mem_append_right _ hx
        obtain ⟨p, hpmem, rfl⟩ := List.mem_map.1 hx2
        exact hmem p hpmem
      have hlen : (tailp.map (·.1)).length + 1 ≤ entries.length := by
        have hle := nodup_subset_length hsuffnd hsuffsub
        simp only [List.length_cons, keysOf, List.length_map] at hle ⊢
        omega
      have hreach := reach_of_pathOk (tailp.map (·.1)) start.1 cur tgt
        entries.length hsuffOk hsufflast hedge hlen
      rw [hstart] at hreach
      have htgt : tgt ∈ keysOf entries := by
        have := hsuffsub start.1 (List.mem_cons_self _ _)
        rwa [hstart] at this
      rw [hcyc tgt htgt] at hreach
      cases hreach

/-- When no declared key can reach itself, a depth-first visit along a
valid traversal path emits no diagnostic. -/
theorem visitNode_no_cycle {entries : Hierarchy}
    (hknd : (keysOf entries).Nodup)
    (hcyc : ∀ k ∈ keysOf entries, reachesWithin entries entries.length k k = false) :
    ∀ (fuel : Nat) (path : List (String × String)) (arriv : String × String)
      (v : List String),
      pathOk entries ((path ++ [(arriv.2, arriv.1)]).map (·.1)) = true →
      ((path ++ [(arriv.2, arriv.1)]).map (·.1)).Nodup →
      (∀ p ∈ path ++ [(arriv.2, arriv.1)], p.1 ∈ keysOf entries) →
      (visitNode entries fuel path arriv v).2 = [] := by
  intro fuel
  induction fuel with
  | zero =>
    intro path arriv v _ _ _
    simp [visitNode]
  | succ n ih =>
    intro path arriv v hp hnd hmem
    rw [visitNode]
    show (goEdges _ _ _ _).2 = []
    apply goEdges_no_cycle hknd hcyc (adj entries arriv.2) _
      (path ++ [(arriv.2, arriv.1)]) arriv.2 v hp hnd hmem
    · rw [List.map_append]
      exact List.getLast?_concat _
    · intro e2 he2
      exact he2
    · intro e v2 hein hdw
      have hnotin : ∀ p ∈ path ++ [(arriv.2, arriv.1)], p.1 ≠ e.2 := by
        intro p hpmem hcontra
        have hall := List.dropWhile_eq_nil_iff.1 hdw p hpmem
        rw [Bool.not_eq_true'] at hall
        rw [hcontra] at hall
        simp at hall
      have hlast2 : ((path ++ [(arriv.2, arriv.1)]).map (·.1)).getLast? =
          some arriv.2 := by
        rw [List.map_append]
        exact List.getLast?_concat _
      have hmapkey : ((path ++ [(arriv.2, arriv.1)]) ++ [(e.2, e.1)]).map (·.1) =
          ((path ++ [(arriv.2, arriv.1)]).map (·.1)) ++ [e.2] := by
        rw [List.map_append]
        rfl
      apply ih (path ++ [(arriv.2, arriv.1)]) e v2
      · rw [hmapkey]
        exact pathOk_append_edge _ arriv.2 e.2 hp hlast2 (hasEdge_of_mem_adj hein)
      · rw [hmapkey, List.nodup_append]
        refine ⟨hnd, List.nodup_singleton _, ?_⟩
        intro x hx hx2
        simp only [List.mem_singleton] at hx2
        obtain ⟨p, hpmem, rfl⟩ := List.mem_map.1 hx
        exact hnotin p hpmem hx2
      · intro p hpmem
        rcases List.mem_append.1 hpmem with hpm | hpm
        · exact hmem p hpm
        · simp only [List.mem_singleton] at hpm
          subst hpm
          exact adj_target_mem hein

/-- When no declared key can reach itself, pass 6 emits nothing. -/
theorem cycleDiags_no_diags {entries : Hierarchy}
    (hknd : (keysOf entries).Nodup)
    (hcyc : ∀ k ∈ keysOf entries, reachesWithin entries entries.length k k = false) :
    cycleDiags entries = [] := by
  rw [cycleDiags]
  have main : ∀ (l : Hierarchy), (∀ e ∈ l, e ∈ entries) →
      ∀ (acc : List String × List Diagnostic), acc.2 = [] →
      (l.foldl (cycleStep entries) acc).2 = [] := by
    intro l
    induction l with
    | nil => intro _ acc h; exact h
    | cons e rest ih =>
      intro hsub acc hacc
      rw [List.foldl_cons]
      apply ih (fun e2 he2 => hsub e2 (List.mem_cons_of_mem _ he2))
      rw [cycleStep]
      by_cases hc : acc.1.contains e.1
      · rw [if_pos hc]
        exact hacc
      · rw [if_neg hc]
        have hv : (visitNode entries (entries.length + 1) [] ("", e.1) acc.1).2 = [] := by
          apply visitNode_no_cycle hknd hcyc
          · rfl
          · simp
          · intro p hp
            simp only [List.nil_append, List.mem_singleton] at hp
            subst hp
            exact List.mem_map_of_mem (·.1) (hsub e (List.mem_cons_self _ _))
        simp [hv, hacc]
  exact main entries (fun _ h => h) ([], []) rfl

/-- With pairwise distinct lower-cased keys, every conflict group is a
singleton. -/
theorem conflictGroupsAux_others_nil :
    ∀ (keys seen : List String), (keys.map lowered).Nodup →
      ∀ g ∈ conflictGroupsAux seen keys, g.2 = [] := by
  intro keys
  induction keys with
  | nil =>
    intro seen _ g hg
    simp [conflictGroupsAux] at hg
  | cons k rest ih =>
    intro seen hnd g hg
    rw [List.map_cons, List.nodup_cons] at hnd
    rw [conflictGroupsAux] at hg
    by_cases hseen : seen.any (sameCaseless k)
    · rw [if_pos hseen] at hg
      exact ih (k :: seen) hnd.2 g hg
    · rw [if_neg hseen] at hg
      rcases List.mem_cons.1 hg with rfl | hg2
      · show rest.filter (sameCaseless k) = []
        rw [List.filter_eq_nil_iff]
        intro x hx hsame
        rw [sameCaseless, beq_iff_eq] at hsame
        exact hnd.1 (hsame ▸ List.mem_map_of_mem lowered hx)
      · exact ih (k :: seen) hnd.2 g hg2

/-- With pairwise distinct lower-cased keys, pass 2 emits nothing. -/
theorem conflictDiags_nil {keys : List String}
    (hnd : (keys.map lowered).Nodup) : conflictDiags keys = [] := by
  rw [conflictDiags, List.filterMap_eq_nil_iff]
  intro g hg
  have h2 := conflictGroupsAux_others_nil keys [] hnd g hg
  simp [h2]

/-- With no illegal character in any key, pass 3 emits nothing. -/
theorem charDiags_nil {keys : List String}
    (h : ∀ k ∈ keys, firstIllegal k = none) : charDiags keys = [] := by
  rw [charDiags, List.filterMap_eq_nil_iff]
  intro k hk
  simp [h k hk]

/-- With no single-character key, pass 4 emits nothing. -/
theorem genericDiags_nil {keys : List String}
    (h : ∀ k ∈ keys, k.length ≠ 1) : genericDiags keys = [] := by
  rw [genericDiags, List.filterMap_eq_nil_iff]
  intro k hk
  simp [h k hk]

/-- With every fulfills entry parsing and resolving, pass 5 emits
nothing. -/
theorem supersDiags_nil {entries : Hierarchy}
    (hsup : ∀ e ∈ entries, ∀ s ∈ e.2.fulfills, superOk entries s = true) :
    supersDiags entries = [] := by
  rw [supersDiags]
  have main : ∀ (l : Hierarchy), (∀ e ∈ l, e ∈ entries) →
      supersDiagsAux entries l = [] := by
    intro l
    induction l with
    | nil => intro _; rfl
    | cons e rest ih =>
      intro hsub
      rw [supersDiagsAux]
      rw [ih (fun e2 he2 => hsub e2 (List.mem_cons_of_mem _ he2))]
      rw [List.append_nil, List.filterMap_eq_nil_iff]
      intro s hs
      have hok := hsup e (hsub e (List.mem_cons_self _ _)) s hs
      cases hp : parse s with
      | error err => simp [superOk, hp] at hok
      | ok t =>
        simp only [superOk, hp] at hok
        cases hr : resolveName entries (TypeExpression.name t) with
        | none => rw [hr] at hok; simp at hok
        | some k2 => simp [superDiagFor, hp, hr]
  exact main entries (fun _ h => h)

/-- C1: a hierarchy definition that is a plain object with no
case-insensitive key conflicts, no illegal characters, no
single-character keys, every fulfills entry parsing with its base name
resolving, and no key able to reach itself in the resolved fulfills
graph, validates with zero diagnostics. -/
theorem hierarchy_clean_validates_silently (entries : Hierarchy)
    (hconf : ((keysOf entries).map lowered).Nodup)
    (hchar : ∀ k ∈ keysOf entries, firstIllegal k = none)
    (hgen : ∀ k ∈ keysOf entries, k.length ≠ 1)
    (hsup : ∀ e ∈ entries, ∀ s ∈ e.2.fulfills, superOk entries s = true)
    (hcyc : ∀ k ∈ keysOf entries, reachesWithin entries entries.length k k = false) :
    validateHierarchy (.object entries) = [] := by
  have hknd : (keysOf entries).Nodup := List.Nodup.of_map lowered hconf
  show conflictDiags (keysOf entries) ++ charDiags (keysOf entries) ++
    genericDiags (keysOf entries) ++ supersDiags entries ++ cycleDiags entries = []
  rw [conflictDiags_nil hconf, charDiags_nil hchar, genericDiags_nil hgen,
    supersDiags_nil hsup, cycleDiags_no_diags hknd hcyc]
  rfl

/-- C1 witness: the repository's five-type acyclic chain satisfies every
hypothesis and validates with zero diagnostics. -/
theorem hierarchy_clean_validates_silently_witness :
    ((keysOf hierChain).map lowered).Nodup ∧
    (∀ k ∈ keysOf hierChain, firstIllegal k = none) ∧
    (∀ k ∈ keysOf hierChain, k.length ≠ 1) ∧
    (∀ e ∈ hierChain, ∀ s ∈ e.2.fulfills, superOk hierChain s = true) ∧
    (∀ k ∈ keysOf hierChain,
      reachesWithin hierChain hierChain.length k k = false) ∧
    validateHierarchy (.object hierChain) = [] :=
  ⟨by decide, by decide, by decide, by decide, by decide,
   hierarchy_clean_validates_silently hierChain (by decide) (by decide)
     (by decide) (by decide) (by decide)⟩
